import Mathlib

/-!
Verification of the text-location and mutation engine of the CodeCraft MCP
server (src/server.js). JavaScript strings are modelled as lists of
characters; file contents are single strings split on the newline character;
the stateful tool operations are modelled as functions from the current file
content to either an error message or the new file content, which mirrors the
source's read-compute-write order (the write happens only after the whole new
content is computed).
-/

/-- Strings of the JavaScript source, modelled as lists of characters. -/
abbrev Str := List Char

/-- Lift a Lean string literal into the character-list model. -/
def str (s : String) : Str := s.data

/-- Whitespace as matched by JavaScript `\s` and stripped by
`String.prototype.trim`: the ASCII whitespace characters together with
no-break space and the byte-order mark. -/
def isWs (c : Char) : Bool :=
  c = ' ' || c = '\t' || c = '\n' || c = '\r' ||
  c = Char.ofNat 11 || c = Char.ofNat 12 || c = Char.ofNat 160 || c = Char.ofNat 65279

/-- JavaScript `String.prototype.trim`: strip leading and trailing
whitespace. -/
def trim (s : Str) : Str :=
  ((s.dropWhile isWs).reverse.dropWhile isWs).reverse

/-- Leading whitespace run of a line, as captured by the source's
`line.match(/^(\s*)/)[1]`. -/
def leadingWs (s : Str) : Str := s.takeWhile isWs

/-- JavaScript `content.split('\n')`: the result always has at least one
(possibly empty) piece. -/
def splitNl : Str → List Str
  | [] => [[]]
  | c :: rest =>
    match splitNl rest with
    | [] => [[c]]
    | l :: ls => if c = '\n' then [] :: l :: ls else (c :: l) :: ls

/-- JavaScript `lines.join('\n')`. -/
def joinNl : List Str → Str
  | [] => []
  | [l] => l
  | l :: l2 :: ls => l ++ '\n' :: joinNl (l2 :: ls)

/-- Whether the first list is a leading segment of the second
(JavaScript `String.prototype.startsWith`). -/
def isPrefixList : Str → Str → Bool
  | [], _ => true
  | _ :: _, [] => false
  | a :: as, b :: bs => a == b && isPrefixList as bs

/-- JavaScript `hay.indexOf(needle)` as an optional index: the least index at
which `needle` occurs in `hay` as a literal substring. -/
def firstOccur (needle : Str) : Str → Option Nat
  | [] => if isPrefixList needle [] then some 0 else none
  | c :: t =>
    if isPrefixList needle (c :: t) then some 0
    else (firstOccur needle t).map (fun n => n + 1)

/-- JavaScript `hay.includes(needle)`. -/
def containsSub (hay needle : Str) : Bool := (firstOccur needle hay).isSome

/-- JavaScript `GetSubstitution` for a string search pattern: inside the
replacement text a dollar followed by a dollar yields one dollar, a dollar
followed by an ampersand yields the matched text, a dollar followed by a
backquote (character 96) the text before the match, a dollar followed by an
apostrophe (character 39) the text after the match; everything else is kept
literally (a string pattern has no capture groups, so group references stay
literal). -/
def getSubst (matched before after : Str) : Str → Str
  | [] => []
  | '$' :: rest =>
    match rest with
    | [] => ['$']
    | c :: rest2 =>
      if c = '$' then '$' :: getSubst matched before after rest2
      else if c = '&' then matched ++ getSubst matched before after rest2
      else if c = Char.ofNat 96 then before ++ getSubst matched before after rest2
      else if c = Char.ofNat 39 then after ++ getSubst matched before after rest2
      else '$' :: c :: getSubst matched before after rest2
  | c :: rest => c :: getSubst matched before after rest

/-- JavaScript `content.replace(old, new)` with string arguments: replace the
leftmost occurrence of `old`, applying dollar substitution to the replacement
text; with no occurrence the content is returned unchanged. -/
def jsReplace (content oldCode newCode : Str) : Str :=
  match firstOccur oldCode content with
  | none => content
  | some i =>
    content.take i
      ++ getSubst oldCode (content.take i) (content.drop (i + oldCode.length)) newCode
      ++ content.drop (i + oldCode.length)

/-- Indexed map over lines, mirroring JavaScript
`array.map((line, idx) => ...)` with `idx` starting at the first argument. -/
def mapWithIdx (f : Nat → Str → Str) : Nat → List Str → List Str
  | _, [] => []
  | i, l :: ls => f i l :: mapWithIdx f (i + 1) ls

/-- Reindentation of the replacement payload on the fuzzy path of
`_performSmartMatch` (src/server.js lines 558-563): the first line is kept as
typed, every later non-blank line is trimmed and the matched line's leading
whitespace is prepended, blank lines pass through unchanged. -/
def fuzzyNewLines (indent : Str) (newCode : Str) : List Str :=
  mapWithIdx
    (fun idx line =>
      if idx = 0 then line
      else if trim line ≠ [] then indent ++ trim line
      else line)
    0 (splitNl newCode)

/-- One window test of the fuzzy loop of `_performSmartMatch`: the trimmed
content lines starting at index `i` must equal the trimmed old lines
positionally; an out-of-range access is a mismatch, as in the source's
`lines[i + j]?.trim() !== oldLines[j]`. -/
def windowMatches (lines : List Str) : Nat → List Str → Bool
  | _, [] => true
  | i, o :: os =>
    (match lines.get? i with
     | some l => trim l == o
     | none => false)
    && windowMatches lines (i + 1) os

/-- The fuzzy for-loop of `_performSmartMatch`: try the indices `start`,
`start + 1`, ... for `count` steps and return the first accepted one. -/
def findFirstIdx (p : Nat → Bool) : Nat → Nat → Option Nat
  | _, 0 => none
  | start, count + 1 =>
    if p start then some start else findFirstIdx p (start + 1) count

/-- The `_performSmartMatch` helper (src/server.js lines 538-572): the exact
substring phase first, then the fuzzy trimmed-window scan. The JavaScript
loop bound `i <= lines.length - oldLines.length` admits exactly
`lines.length + 1 - oldLines.length` iterations (none when the old block has
more lines than the content); on a match the lines of the window are spliced
out and the reindented new lines spliced in. -/
def performSmartMatch (content oldCode newCode : Str) : Option Str :=
  if containsSub content oldCode then some (jsReplace content oldCode newCode)
  else
    let lines := splitNl content
    let oldLines := (splitNl (trim oldCode)).map trim
    match findFirstIdx (fun i => windowMatches lines i oldLines) 0
        (lines.length + 1 - oldLines.length) with
    | some i =>
      let newLines := fuzzyNewLines (leadingWs (lines.getD i [])) newCode
      some (joinNl (lines.take i ++ newLines ++ lines.drop (i + oldLines.length)))
    | none => none

/-- The `smartReplace` tool operation (src/server.js lines 504-536) on the
content of the target file: the value is the new file content, an error is
the thrown message wrapped by the operation's catch block; in the error case
the write is never reached. -/
def smartReplaceOp (content oldCode newCode : Str) (matchMode : Str) : Except Str Str :=
  if matchMode = str "exact" then
    if containsSub content oldCode then .ok (jsReplace content oldCode newCode)
    else .error (str "smart_replace failed: Exact match not found")
  else if matchMode = str "smart" ∨ matchMode = str "fuzzy" then
    match performSmartMatch content oldCode newCode with
    | some newContent => .ok newContent
    | none => .error (str "smart_replace failed: No match found with smart matching")
  else .error (str "smart_replace failed: Invalid match_mode: " ++ matchMode)

/-- The content of the target file after a `smartReplace` call, with the
success flag: the source writes only after the whole new content is computed,
so a failing call leaves the file exactly as it was. -/
def smartReplaceRun (content oldCode newCode : Str) (matchMode : Str) : Str × Bool :=
  match smartReplaceOp content oldCode newCode matchMode with
  | .ok newContent => (newContent, true)
  | .error _ => (content, false)

/-- The `position` argument of `insert_lines` (src/server.js): an object
whose optional fields are probed in source order (`line_number`, then
`after_pattern`/`before_pattern`, then `relative_to`). -/
structure Position where
  line_number : Option Int := none
  insert_mode : Str := []
  after_pattern : Option Str := none
  before_pattern : Option Str := none
  relative_to : Option (Str × Int) := none

/-- JavaScript truthiness of an optional string field: an absent field and
the empty string are both falsy. -/
def jsTruthy : Option Str → Bool
  | none => false
  | some s => !s.isEmpty

/-- The occurrence-counting scan of the `after_pattern` / `before_pattern`
branch of `insertLines` (src/server.js lines 718-727): the index and text of
the `occ`-th line containing `pat` as a substring, counting from the given
running count. -/
def findOccLine (pat : Str) (occ : Int) : Int → Nat → List Str → Option (Nat × Str)
  | _, _, [] => none
  | count, i, l :: ls =>
    if containsSub l pat then
      if count + 1 = occ then some (i, l)
      else findOccLine pat occ (count + 1) (i + 1) ls
    else findOccLine pat occ count (i + 1) ls

/-- The first-match scan of the `relative_to` branch of `insertLines`
(src/server.js lines 736-743): the index and text of the first line
containing `pat` as a substring. -/
def findFirstLine (pat : Str) : Nat → List Str → Option (Nat × Str)
  | _, [] => none
  | i, l :: ls =>
    if containsSub l pat then some (i, l) else findFirstLine pat (i + 1) ls

/-- Resolution of the insertion position in `insertLines` (src/server.js
lines 706-748): the insertion index (before any clamping by the splice) and
the matched line (empty when no pattern matched). When no recognized field is
present the initial index `-1` is kept and no error is raised. -/
def determinePosition (lines : List Str) (pos : Position) (matchOccurrence : Int) :
    Except Str (Int × Str) :=
  if pos.line_number.isSome then
    .ok ((if pos.insert_mode = str "before" then pos.line_number.getD 0 - 1
          else pos.line_number.getD 0), [])
  else if jsTruthy pos.after_pattern || jsTruthy pos.before_pattern then
    let pat := if jsTruthy pos.after_pattern then pos.after_pattern.getD []
               else pos.before_pattern.getD []
    let isAfter := jsTruthy pos.after_pattern
    match findOccLine pat matchOccurrence 0 0 lines with
    | some (i, l) => .ok ((if isAfter then (i : Int) + 1 else (i : Int)), l)
    | none => .error (str "Pattern \"" ++ pat ++ str "\" not found")
  else if pos.relative_to.isSome then
    let pr := pos.relative_to.getD ([], 0)
    match findFirstLine pr.1 0 lines with
    | some (i, l) => .ok ((i : Int) + pr.2 + (if 0 ≤ pr.2 then 1 else 0), l)
    | none => .error (str "Pattern \"" ++ pr.1 ++ str "\" not found")
  else .ok (-1, [])

/-- JavaScript `lines.splice(start, 0, ...items)`: a negative start counts
back from the end, and the start is clamped into the array bounds. -/
def jsSpliceIns (l : List Str) (start : Int) (items : List Str) : List Str :=
  let len : Int := l.length
  let actual : Nat := (if start < 0 then max (len + start) 0 else min start len).toNat
  l.take actual ++ items ++ l.drop actual

/-- The indentation step of `insertLines` (src/server.js lines 750-757): when
indentation preservation is requested and a line was matched (JavaScript
truthiness: the empty matched line disables the step), every non-first
non-blank payload line gets the matched line's leading whitespace prepended,
keeping the line's own whitespace. -/
def insertProcess (preserveIndentation : Bool) (matchedLine : Str) (content : Str) : Str :=
  if preserveIndentation && !matchedLine.isEmpty then
    joinNl (mapWithIdx
      (fun i line => if i = 0 ∨ trim line = [] then line else leadingWs matchedLine ++ line)
      0 (splitNl content))
  else content

/-- The result reported by a successful `insert_lines` call: the new file
content, the reported 1-based insertion line (the raw index plus one, even
when the splice clamped), and the reported number of inserted lines. -/
structure InsertResult where
  newContent : Str
  insertedAtLine : Int
  linesInserted : Nat
deriving DecidableEq

/-- The `insertLines` tool operation (src/server.js lines 690-768) on the
content of the target file. -/
def insertLinesOp (fileContent payload : Str) (pos : Position)
    (matchOccurrence : Int) (preserveIndentation : Bool) : Except Str InsertResult :=
  let lines := splitNl fileContent
  match determinePosition lines pos matchOccurrence with
  | .error e => .error e
  | .ok (insertIndex, matchedLine) =>
    let processed := insertProcess preserveIndentation matchedLine payload
    .ok ⟨joinNl (jsSpliceIns lines insertIndex (splitNl processed)),
         insertIndex + 1, (splitNl processed).length⟩

/-- Split a path string on the separator character. -/
def splitSep : Str → List Str
  | [] => [[]]
  | c :: rest =>
    match splitSep rest with
    | [] => [[c]]
    | l :: ls => if c = '/' then [] :: l :: ls else (c :: l) :: ls

/-- Join path segments with the separator character. -/
def joinSep : List Str → Str
  | [] => []
  | [l] => l
  | l :: l2 :: ls => l ++ '/' :: joinSep (l2 :: ls)

/-- The canonicalization of Node `path.resolve`: empty and `.` segments are
dropped, `..` pops the previous segment and is dropped at the root. The
first argument is the stack of kept segments, most recent first. -/
def normSegs : List Str → List Str → List Str
  | stack, [] => stack.reverse
  | stack, seg :: rest =>
    if seg = [] ∨ seg = ['.'] then normSegs stack rest
    else if seg = ['.', '.'] then normSegs stack.tail rest
    else normSegs (seg :: stack) rest

/-- Node `path.resolve` applied to one absolute posix path: canonicalize its
segments and re-render it. -/
def normalizeAbs (p : Str) : Str :=
  '/' :: joinSep (normSegs [] (splitSep p))

/-- Node `path.resolve(SANDBOX_DIR, userPath)` with an absolute canonical
sandbox root: an absolute user path stands alone, a relative one is joined
to the root; the result is canonicalized. -/
def pathResolve (root userPath : Str) : Str :=
  if userPath.head? = some '/' then normalizeAbs userPath
  else normalizeAbs (root ++ '/' :: userPath)

/-- The `_resolveSandboxPath` guard (src/server.js lines 48-54): resolve,
then accept exactly when the resolved string starts with the root string
(JavaScript `String.prototype.startsWith` on the two raw strings); `none` is
the thrown security error. -/
def resolveSandboxPath (root userPath : Str) : Option Str :=
  let resolved := pathResolve root userPath
  if isPrefixList root resolved then some resolved else none

/-- Modelled from the spec's containment predicate: a canonical path is
confined to the sandbox root when it is equal to the root or a descendant of
it (the root followed by a separator is a leading segment of the path). -/
def specSandboxContained (root p : Str) : Bool :=
  p == root || isPrefixList (root ++ ['/']) p

/-! Helper lemmas about the embedded operations. -/

lemma splitNl_ne_nil (s : Str) : splitNl s ≠ [] := by
  cases s with
  | nil => simp [splitNl]
  | cons c rest =>
    unfold splitNl
    cases splitNl rest with
    | nil => simp
    | cons l ls => by_cases hc : c = '\n' <;> simp [hc]

lemma splitNl_length_pos (s : Str) : 0 < (splitNl s).length :=
  List.length_pos.mpr (splitNl_ne_nil s)

lemma mapWithIdx_length (f : Nat → Str → Str) :
    ∀ (s : Nat) (l : List Str), (mapWithIdx f s l).length = l.length := by
  intro s l
  induction l generalizing s with
  | nil => simp [mapWithIdx]
  | cons hd tl ih => simp [mapWithIdx, ih]

lemma mapWithIdx_getD (f : Nat → Str → Str) :
    ∀ (l : List Str) (s i : Nat), i < l.length →
      (mapWithIdx f s l).getD i [] = f (s + i) (l.getD i []) := by
  intro l
  induction l with
  | nil => intro s i h; simp at h
  | cons hd tl ih =>
    intro s i hi
    cases i with
    | zero => simp [mapWithIdx]
    | succ k =>
      have hk : k < tl.length := by simpa using hi
      have := ih (s + 1) k hk
      simp only [mapWithIdx, List.getD_cons_succ, this]
      congr 1
      omega

lemma splitNl_no_nl (s : Str) : ∀ l ∈ splitNl s, '\n' ∉ l := by
  induction s with
  | nil => intro l hl; simp [splitNl] at hl; simp [hl]
  | cons c rest ih =>
    intro l hl
    cases hsp : splitNl rest with
    | nil => exact absurd hsp (splitNl_ne_nil rest)
    | cons m ms =>
      have h1 : splitNl (c :: rest)
          = if c = '\n' then ([] : Str) :: m :: ms else (c :: m) :: ms := by
        rw [splitNl, hsp]
      rw [h1] at hl
      by_cases hc : c = '\n'
      · rw [if_pos hc] at hl
        rcases List.mem_cons.mp hl with h | h
        · simp [h]
        · exact ih l (by rw [hsp]; exact h)
      · rw [if_neg hc] at hl
        rcases List.mem_cons.mp hl with h | h
        · subst h
          intro hmem
          rcases List.mem_cons.mp hmem with h' | h'
          · exact hc h'.symm
          · exact ih m (by rw [hsp]; simp) h'
        · exact ih l (by rw [hsp]; simp [h])

lemma splitNl_of_no_nl (l : Str) (h : '\n' ∉ l) : splitNl l = [l] := by
  induction l with
  | nil => simp [splitNl]
  | cons c t ih =>
    have hc : c ≠ '\n' := fun hc => h (by simp [hc])
    have ht : splitNl t = [t] := ih (fun hm => h (by simp [hm]))
    unfold splitNl
    rw [ht]
    simp [hc]

lemma splitNl_append_nl (l s : Str) (h : '\n' ∉ l) :
    splitNl (l ++ '\n' :: s) = l :: splitNl s := by
  induction l with
  | nil =>
    simp only [List.nil_append]
    cases hsp : splitNl s with
    | nil => exact absurd hsp (splitNl_ne_nil s)
    | cons m ms =>
      have h1 : splitNl ('\n' :: s)
          = if '\n' = '\n' then ([] : Str) :: m :: ms else ('\n' :: m) :: ms := by
        rw [splitNl, hsp]
      rw [h1, if_pos rfl]
  | cons c t ih =>
    have hc : c ≠ '\n' := fun hcc => h (by simp [hcc])
    have ht := ih (fun hm => h (by simp [hm]))
    cases hsp : splitNl s with
    | nil => exact absurd hsp (splitNl_ne_nil s)
    | cons m ms =>
      rw [hsp] at ht
      have h1 : splitNl (c :: t ++ '\n' :: s)
          = if c = '\n' then ([] : Str) :: t :: m :: ms else (c :: t) :: m :: ms := by
        rw [List.cons_append, splitNl, ht]
      rw [h1, if_neg hc]

lemma splitNl_joinNl (ls : List Str) (hne : ls ≠ []) (hnl : ∀ l ∈ ls, '\n' ∉ l) :
    splitNl (joinNl ls) = ls := by
  induction ls with
  | nil => exact absurd rfl hne
  | cons l tl ih =>
    cases tl with
    | nil => simpa [joinNl] using splitNl_of_no_nl l (hnl l (by simp))
    | cons l2 tl2 =>
      have h1 : '\n' ∉ l := hnl l (by simp)
      have h2 : ∀ m ∈ l2 :: tl2, '\n' ∉ m := fun m hm => hnl m (by simp [hm])
      simp only [joinNl]
      rw [splitNl_append_nl l _ h1, ih (by simp) h2]

lemma findFirstIdx_found (p : Nat → Bool) :
    ∀ (count start i : Nat), start ≤ i → i < start + count → p i = true →
    (∀ j, start ≤ j → j < i → p j = false) →
    findFirstIdx p start count = some i := by
  intro count
  induction count with
  | zero => intro start i h1 h2; omega
  | succ c ih =>
    intro start i h1 h2 hp hmin
    by_cases hs : start = i
    · subst hs
      simp [findFirstIdx, hp]
    · have hlt : start < i := lt_of_le_of_ne h1 hs
      have hf : p start = false := hmin start le_rfl hlt
      simp only [findFirstIdx, hf, Bool.false_eq_true, if_false]
      exact ih (start + 1) i (by omega) (by omega) hp (fun j hj1 hj2 => hmin j (by omega) hj2)

lemma findFirstLine_found (pat : Str) :
    ∀ (l : List Str) (s i : Nat), i < l.length →
    containsSub (l.getD i []) pat = true →
    (∀ j, j < i → containsSub (l.getD j []) pat = false) →
    findFirstLine pat s l = some (s + i, l.getD i []) := by
  intro l
  induction l with
  | nil => intro s i h; simp at h
  | cons hd tl ih =>
    intro s i hi hp hmin
    cases i with
    | zero =>
      simp only [List.getD_cons_zero] at hp
      simp [findFirstLine, hp]
    | succ k =>
      have h0 : containsSub hd pat = false := by simpa using hmin 0 (Nat.succ_pos k)
      have hk : k < tl.length := by simpa using hi
      have hpk : containsSub (tl.getD k []) pat = true := by simpa using hp
      have hmk : ∀ j, j < k → containsSub (tl.getD j []) pat = false := by
        intro j hj
        simpa using hmin (j + 1) (by omega)
      simp only [findFirstLine, h0, Bool.false_eq_true, if_false,
        ih (s + 1) k hk hpk hmk, List.getD_cons_succ]
      congr 2
      omega

lemma findFirstLine_none (pat : Str) :
    ∀ (l : List Str) (s : Nat),
    (∀ j, j < l.length → containsSub (l.getD j []) pat = false) →
    findFirstLine pat s l = none := by
  intro l
  induction l with
  | nil => intro s _; simp [findFirstLine]
  | cons hd tl ih =>
    intro s hall
    have h0 : containsSub hd pat = false := by simpa using hall 0 (by simp)
    have ht : ∀ j, j < tl.length → containsSub (tl.getD j []) pat = false := by
      intro j hj
      simpa using hall (j + 1) (by simpa using Nat.succ_lt_succ hj)
    simp only [findFirstLine, h0, Bool.false_eq_true, if_false, ih (s + 1) ht]

lemma firstOccur_spec (needle : Str) :
    ∀ (hay : Str) (i : Nat), firstOccur needle hay = some i →
    isPrefixList needle (hay.drop i) = true ∧ i ≤ hay.length ∧
    ∀ j, j < i → isPrefixList needle (hay.drop j) = false := by
  intro hay
  induction hay with
  | nil =>
    intro i h
    unfold firstOccur at h
    by_cases hp : isPrefixList needle [] = true
    · rw [if_pos hp] at h
      injection h with h'
      subst h'
      exact ⟨hp, by simp, fun j hj => absurd hj (by omega)⟩
    · rw [if_neg hp] at h
      cases h
  | cons c t ih =>
    intro i h
    unfold firstOccur at h
    by_cases hp : isPrefixList needle (c :: t) = true
    · rw [if_pos hp] at h
      injection h with h'
      subst h'
      exact ⟨by simpa using hp, by simp, fun j hj => absurd hj (by omega)⟩
    · rw [if_neg hp] at h
      cases ho : firstOccur needle t with
      | none => rw [ho] at h; simp at h
      | some k =>
        rw [ho] at h
        simp at h
        obtain ⟨h1, h2, h3⟩ := ih k ho
        subst h
        refine ⟨by simpa using h1, by simp; omega, ?_⟩
        intro j hj
        cases j with
        | zero =>
          simpa using Bool.not_eq_true _ |>.mp hp
        | succ m =>
          have := h3 m (by omega)
          simpa using this

lemma mapWithIdx_mem (f : Nat → Str → Str) :
    ∀ (s : Nat) (l : List Str) (x : Str), x ∈ mapWithIdx f s l →
      ∃ idx line, line ∈ l ∧ x = f idx line := by
  intro s l
  induction l generalizing s with
  | nil => intro x hx; simp [mapWithIdx] at hx
  | cons hd tl ih =>
    intro x hx
    simp only [mapWithIdx] at hx
    rcases List.mem_cons.mp hx with h | h
    · exact ⟨s, hd, by simp, h⟩
    · obtain ⟨idx, line, hm, he⟩ := ih (s + 1) x h
      exact ⟨idx, line, by simp [hm], he⟩

lemma insertProcess_splitNl (matchedLine payload : Str) (hml : matchedLine ≠ [])
    (hnl : '\n' ∉ matchedLine) :
    splitNl (insertProcess true matchedLine payload)
      = mapWithIdx (fun i line => if i = 0 ∨ trim line = [] then line
          else leadingWs matchedLine ++ line) 0 (splitNl payload) := by
  have hemp : matchedLine.isEmpty = false := by
    cases matchedLine
    · exact absurd rfl hml
    · rfl
  have h1 : insertProcess true matchedLine payload
      = joinNl (mapWithIdx (fun i line => if i = 0 ∨ trim line = [] then line
          else leadingWs matchedLine ++ line) 0 (splitNl payload)) := by
    simp [insertProcess, hemp]
  rw [h1]
  apply splitNl_joinNl
  · have hlen := mapWithIdx_length (fun i line => if i = 0 ∨ trim line = [] then line
        else leadingWs matchedLine ++ line) 0 (splitNl payload)
    intro hcon
    rw [hcon] at hlen
    have hpos := splitNl_length_pos payload
    simp at hlen
    omega
  · intro l hl
    obtain ⟨idx, line, hm, he⟩ := mapWithIdx_mem _ 0 (splitNl payload) l hl
    subst he
    have hline : '\n' ∉ line := splitNl_no_nl payload line hm
    by_cases hc : idx = 0 ∨ trim line = []
    · rw [if_pos hc]; exact hline
    · rw [if_neg hc]
      intro hmem
      rcases List.mem_append.mp hmem with h | h
      · exact hnl ((List.takeWhile_sublist _).subset h)
      · exact hline h

/-! Claim theorems. -/

/-- C1: sandbox containment fails on a prefix collision. The guard accepts
the user path `../root-evil` against the sandbox root `/root`: the canonical
result `/root-evil` passes the raw `startsWith` check although it is neither
the root nor a descendant of it, so the resolution operation returns a path
outside the sandbox root instead of failing with a security violation. -/
theorem c1_sandbox_prefix_collision_bug :
    resolveSandboxPath (str "/root") (str "../root-evil") = some (str "/root-evil")
  ∧ specSandboxContained (str "/root") (str "/root-evil") = false := by
  exact ⟨by decide, by decide⟩

/-- C2: exact-match priority. Whenever the old code is a literal substring of
the content, `smart_replace` in smart mode and in fuzzy mode computes exactly
the new content of exact mode — the first phase of `_performSmartMatch` is
the same substring check and replacement as exact mode, so the fuzzy phase is
never reached. -/
theorem c2_exact_match_priority (content oldCode newCode : Str)
    (h : containsSub content oldCode = true) :
    smartReplaceOp content oldCode newCode (str "smart")
        = smartReplaceOp content oldCode newCode (str "exact")
  ∧ smartReplaceOp content oldCode newCode (str "fuzzy")
        = smartReplaceOp content oldCode newCode (str "exact")
  ∧ smartReplaceOp content oldCode newCode (str "smart")
        = .ok (jsReplace content oldCode newCode) := by
  have h1 : str "smart" ≠ str "exact" := by decide
  have h2 : str "fuzzy" ≠ str "exact" := by decide
  have h3 : str "smart" = str "smart" ∨ str "smart" = str "fuzzy" := by decide
  have h4 : str "fuzzy" = str "smart" ∨ str "fuzzy" = str "fuzzy" := by decide
  refine ⟨?_, ?_, ?_⟩ <;>
    simp [smartReplaceOp, performSmartMatch, h, h1, h2, h3, h4]

/-- C2 witness: at a concrete contained substring, smart mode equals exact
mode. -/
theorem c2_exact_match_priority_witness :
    smartReplaceOp (str "hello") (str "ell") (str "ELL") (str "smart")
      = smartReplaceOp (str "hello") (str "ell") (str "ELL") (str "exact") :=
  (c2_exact_match_priority (str "hello") (str "ell") (str "ELL") (by decide)).1

/-- C6 counterexample: an empty old code is not rejected. With content `abc`,
empty old code and new code `X` in smart mode the call succeeds and the file
content changes to `Xabc`, contradicting the claimed fail-fast
invalid-argument error and the claimed absence of modification. -/
theorem c6_empty_old_counterexample :
    smartReplaceRun (str "abc") [] (str "X") (str "smart") = (str "Xabc", true)
  ∧ str "Xabc" ≠ str "abc" := by
  exact ⟨by decide, by decide⟩

/-- C6 amended: an empty old code cannot yield zero match lines (a split
always yields at least one line), and it is not rejected: the empty string is
a substring of every content, so the exact phase of smart mode replaces at
position zero, prepending the substituted new code, and the operation
succeeds with the modified content. -/
theorem c6_empty_old_amended (content newCode : Str) :
    ((splitNl (trim ([] : Str))).map trim).length = 1
  ∧ smartReplaceRun content [] newCode (str "smart")
      = (getSubst [] [] content newCode ++ content, true) := by
  refine ⟨by decide, ?_⟩
  have hc : containsSub content [] = true := by
    cases content <;> simp [containsSub, firstOccur, isPrefixList]
  have hf : firstOccur [] content = some 0 := by
    cases content <;> simp [firstOccur, isPrefixList]
  have h1 : str "smart" ≠ str "exact" := by decide
  have h3 : str "smart" = str "smart" ∨ str "smart" = str "fuzzy" := by decide
  simp [smartReplaceRun, smartReplaceOp, performSmartMatch, hc, jsReplace, hf, h1, h3]

/-- C8: failure atomicity of replacement. When exact mode finds no substring,
or smart/fuzzy mode finds neither an exact nor a fuzzy match, the operation
returns an error and the resulting file content is exactly the original
content (the source writes only after a successful computation). -/
theorem c8_failure_atomicity (content oldCode newCode : Str) :
    (containsSub content oldCode = false →
      smartReplaceRun content oldCode newCode (str "exact") = (content, false))
  ∧ (performSmartMatch content oldCode newCode = none →
      smartReplaceRun content oldCode newCode (str "smart") = (content, false))
  ∧ (performSmartMatch content oldCode newCode = none →
      smartReplaceRun content oldCode newCode (str "fuzzy") = (content, false)) := by
  have h1 : str "smart" ≠ str "exact" := by decide
  have h2 : str "fuzzy" ≠ str "exact" := by decide
  have h3 : str "smart" = str "smart" ∨ str "smart" = str "fuzzy" := by decide
  have h4 : str "fuzzy" = str "smart" ∨ str "fuzzy" = str "fuzzy" := by decide
  refine ⟨fun h => ?_, fun h => ?_, fun h => ?_⟩ <;>
    simp [smartReplaceRun, smartReplaceOp, h, h1, h2, h3, h4]

/-- C8 witness: a concrete failing exact search and a concrete failing smart
search both leave the file content unchanged. -/
theorem c8_failure_atomicity_witness :
    smartReplaceRun (str "a\nb") (str "zz") (str "Y") (str "exact") = (str "a\nb", false)
  ∧ smartReplaceRun (str "a\nb") (str "zz") (str "Y") (str "smart") = (str "a\nb", false) :=
  ⟨(c8_failure_atomicity (str "a\nb") (str "zz") (str "Y")).1 (by decide),
   (c8_failure_atomicity (str "a\nb") (str "zz") (str "Y")).2.1 (by decide)⟩

/-- C10 counterexample: with content `aaa`, old code `aa` occurs at indices 0
and 1 (two or more occurrences), the exact replacement with `b` yields `ba`,
and no occurrence of `aa` remains in the result — the later, overlapping
occurrence did not remain byte-identical. -/
theorem c10_exact_counterexample :
    isPrefixList (str "aa") ((str "aaa").drop 0) = true
  ∧ isPrefixList (str "aa") ((str "aaa").drop 1) = true
  ∧ jsReplace (str "aaa") (str "aa") (str "b") = str "ba"
  ∧ containsSub (str "ba") (str "aa") = false := by
  exact ⟨by decide, by decide, by decide, by decide⟩

/-- C10 amended: exact replacement rewrites precisely the leftmost occurrence
of the old code: the result is the text before that occurrence, then the
substituted new code, then the text after the occurrence; no occurrence
starts earlier; the text before the occurrence and the whole text from the
end of the occurrence onward (hence every later non-overlapping occurrence)
remain byte-identical. -/
theorem c10_exact_leftmost (content oldCode newCode : Str) (i : Nat)
    (h : firstOccur oldCode content = some i) :
    jsReplace content oldCode newCode =
      content.take i
        ++ getSubst oldCode (content.take i) (content.drop (i + oldCode.length)) newCode
        ++ content.drop (i + oldCode.length)
  ∧ (∀ j, j < i → isPrefixList oldCode (content.drop j) = false)
  ∧ (jsReplace content oldCode newCode).take i = content.take i
  ∧ (jsReplace content oldCode newCode).drop
      (i + (getSubst oldCode (content.take i) (content.drop (i + oldCode.length)) newCode).length)
      = content.drop (i + oldCode.length) := by
  obtain ⟨hpre, hle, hmin⟩ := firstOccur_spec oldCode content i h
  have hrepl : jsReplace content oldCode newCode =
      content.take i
        ++ getSubst oldCode (content.take i) (content.drop (i + oldCode.length)) newCode
        ++ content.drop (i + oldCode.length) := by
    simp [jsReplace, h]
  have hlen : (content.take i).length = i := by
    simp [List.length_take]
    omega
  refine ⟨hrepl, hmin, ?_, ?_⟩
  · rw [hrepl, List.append_assoc, List.take_left' hlen]
  · rw [hrepl]
    exact List.drop_left' (by simp [hlen])

/-- C10 witness: the leftmost-occurrence characterization evaluated at a
content with two occurrences of the old code. -/
theorem c10_exact_leftmost_witness :
    (jsReplace (str "aba aba") (str "aba") (str "Z")).take 0 = (str "aba aba").take 0
  ∧ (jsReplace (str "aba aba") (str "aba") (str "Z")).drop
      (0 + (getSubst (str "aba") ((str "aba aba").take 0)
        ((str "aba aba").drop (0 + (str "aba").length)) (str "Z")).length)
      = (str "aba aba").drop (0 + (str "aba").length) := by
  have h := c10_exact_leftmost (str "aba aba") (str "aba") (str "Z") 0 (by decide)
  exact ⟨h.2.2.1, h.2.2.2⟩

/-- C7 counterexample: out-of-range line numbers do not fail. On the
two-line file `a\nb`, the line-number 10 insertion succeeds and is clamped to
an append, and the line-number -5 insertion succeeds and is clamped to the
start — where the claim demands an out-of-range error for both. -/
theorem c7_line_number_counterexample :
    insertLinesOp (str "a\nb") (str "X") ⟨some 10, [], none, none, none⟩ 1 true
      = .ok ⟨str "a\nb\nX", 11, 1⟩
  ∧ insertLinesOp (str "a\nb") (str "X") ⟨some (-5), [], none, none, none⟩ 1 true
      = .ok ⟨str "X\na\nb", -4, 1⟩ := by
  exact ⟨rfl, rfl⟩

/-- C7 amended: a line-number insertion with an out-of-range line number
(negative, or greater than the line count plus one) never fails: the raw
index (line number, minus one in `before` mode) is passed to the splice,
which clamps it into the array bounds (a negative index counts back from the
end), and the operation reports success with the raw index plus one. -/
theorem c7_line_number_amended (fileContent payload : Str) (n : Int) (mode : Str)
    (occ : Int) (pInd : Bool)
    (h : n < 0 ∨ ((splitNl fileContent).length : Int) + 1 < n) :
    insertLinesOp fileContent payload ⟨some n, mode, none, none, none⟩ occ pInd =
      .ok ⟨joinNl (jsSpliceIns (splitNl fileContent)
              (if mode = str "before" then n - 1 else n) (splitNl payload)),
           (if mode = str "before" then n - 1 else n) + 1,
           (splitNl payload).length⟩ := by
  have hdp : determinePosition (splitNl fileContent) ⟨some n, mode, none, none, none⟩ occ
      = .ok ((if mode = str "before" then n - 1 else n), []) := by
    simp [determinePosition]
  have hpr : insertProcess pInd [] payload = payload := by
    simp [insertProcess]
  simp only [insertLinesOp, hdp, hpr]

/-- C9: a position object with none of the recognized strategy fields does
not fail: the insertion index remains -1, the splice therefore inserts the
payload immediately before the last line of the file (no indentation is
applied, since no line was matched), and the call reports success with
inserted line 0. -/
theorem c9_default_position_insert (fileContent payload : Str) (occ : Int) (pInd : Bool) :
    insertLinesOp fileContent payload ⟨none, [], none, none, none⟩ occ pInd =
      .ok ⟨joinNl ((splitNl fileContent).take ((splitNl fileContent).length - 1)
            ++ splitNl payload
            ++ (splitNl fileContent).drop ((splitNl fileContent).length - 1)),
          0, (splitNl payload).length⟩ := by
  have hl := splitNl_length_pos fileContent
  have hdp : determinePosition (splitNl fileContent) ⟨none, [], none, none, none⟩ occ
      = .ok (-1, []) := rfl
  have hpr : insertProcess pInd [] payload = payload := by simp [insertProcess]
  have hsp : jsSpliceIns (splitNl fileContent) (-1) (splitNl payload)
      = (splitNl fileContent).take ((splitNl fileContent).length - 1)
        ++ splitNl payload ++ (splitNl fileContent).drop ((splitNl fileContent).length - 1) := by
    simp only [jsSpliceIns]
    have hcast : (1 : Int) ≤ ((splitNl fileContent).length : Int) := by exact_mod_cast hl
    have hmax : max (((splitNl fileContent).length : Int) + -1) 0
        = ((splitNl fileContent).length : Int) + -1 := max_eq_left (by omega)
    have h2 : (if (-1 : Int) < 0 then max (((splitNl fileContent).length : Int) + -1) 0
        else min (-1) (((splitNl fileContent).length : Int))).toNat
        = (splitNl fileContent).length - 1 := by
      rw [if_pos (by norm_num), hmax]
      omega
    rw [h2]
  simp only [insertLinesOp, hdp, hpr, hsp]
  norm_num

/-- C5: relative_to position resolution. The resolver ignores the occurrence
argument, uses only the first line containing the pattern as a substring, and
returns the index `matchIndex + offset + 1` for a non-negative offset and
`matchIndex + offset` for a negative one; when no line contains the pattern
it fails with the pattern-not-found error. -/
theorem c5_relative_to_resolution (lines : List Str) (pat : Str) (off : Int) (occ : Int) :
    (∀ occ2 : Int, determinePosition lines ⟨none, [], none, none, some (pat, off)⟩ occ
        = determinePosition lines ⟨none, [], none, none, some (pat, off)⟩ occ2)
  ∧ (∀ i : Nat, i < lines.length →
      containsSub (lines.getD i []) pat = true →
      (∀ j, j < i → containsSub (lines.getD j []) pat = false) →
      determinePosition lines ⟨none, [], none, none, some (pat, off)⟩ occ
        = .ok ((i : Int) + off + (if 0 ≤ off then 1 else 0), lines.getD i []))
  ∧ ((∀ j, j < lines.length → containsSub (lines.getD j []) pat = false) →
      determinePosition lines ⟨none, [], none, none, some (pat, off)⟩ occ
        = .error (str "Pattern \"" ++ pat ++ str "\" not found")) := by
  refine ⟨fun occ2 => rfl, fun i hi hp hmin => ?_, fun hall => ?_⟩
  · have hf := findFirstLine_found pat lines 0 i hi hp hmin
    simp [determinePosition, jsTruthy, hf]
  · have hf := findFirstLine_none pat lines 0 hall
    simp [determinePosition, jsTruthy, hf]

/-- C5 witness: with lines `x`, `foo`, `bar`, pattern `foo` and offset 2, the
resolved index is 1 + 2 + 1 = 4 whatever the occurrence argument. -/
theorem c5_relative_to_resolution_witness :
    determinePosition [str "x", str "foo", str "bar"]
        ⟨none, [], none, none, some (str "foo", 2)⟩ 5
      = .ok (4, str "foo") := by
  have hmin : ∀ j, j < 1 →
      containsSub ([str "x", str "foo", str "bar"].getD j []) (str "foo") = false := by
    intro j hj
    have hj0 : j = 0 := by omega
    subst hj0
    decide
  have h := (c5_relative_to_resolution [str "x", str "foo", str "bar"] (str "foo") 2 5).2.1
    1 (by decide) (by decide) hmin
  simpa using h

/-- C3 counterexample: with content `  a\n  a\n  a`, old code `a\na` and new
code `X`, the trimmed windows at line indices 0 and 1 both match (two or more
identical windows), yet the smart replacement returns `X\n  a`: the window at
index 1 does not survive unchanged — its first line was consumed by the
replacement of the overlapping window at index 0. Moreover with content
`b a\na\nx\n  a\n  a` the old code is a literal substring, so the exact phase
rewrites lines 0 and 1 although the only matching trimmed window starts at
line 3: the rewrite is not confined to the lowest matching window. -/
theorem c3_first_window_counterexample :
    windowMatches (splitNl (str "  a\n  a\n  a")) 0
        ((splitNl (trim (str "a\na"))).map trim) = true
  ∧ windowMatches (splitNl (str "  a\n  a\n  a")) 1
        ((splitNl (trim (str "a\na"))).map trim) = true
  ∧ performSmartMatch (str "  a\n  a\n  a") (str "a\na") (str "X") = some (str "X\n  a")
  ∧ (splitNl (str "X\n  a")).drop 1 ≠ (splitNl (str "  a\n  a\n  a")).drop 1
  ∧ containsSub (str "b a\na\nx\n  a\n  a") (str "a\na") = true
  ∧ windowMatches (splitNl (str "b a\na\nx\n  a\n  a")) 3
        ((splitNl (trim (str "a\na"))).map trim) = true
  ∧ windowMatches (splitNl (str "b a\na\nx\n  a\n  a")) 0
        ((splitNl (trim (str "a\na"))).map trim) = false
  ∧ windowMatches (splitNl (str "b a\na\nx\n  a\n  a")) 1
        ((splitNl (trim (str "a\na"))).map trim) = false
  ∧ windowMatches (splitNl (str "b a\na\nx\n  a\n  a")) 2
        ((splitNl (trim (str "a\na"))).map trim) = false
  ∧ performSmartMatch (str "b a\na\nx\n  a\n  a") (str "a\na") (str "X")
        = some (str "b X\nx\n  a\n  a")
  ∧ (splitNl (str "b X\nx\n  a\n  a")).getD 0 []
        ≠ (splitNl (str "b a\na\nx\n  a\n  a")).getD 0 [] := by
  decide

/-- C3 amended: when the exact substring phase does not apply, smart-mode
replacement rewrites exactly the matching trimmed window with the lowest line
index: the result keeps the lines before that window and the lines from the
end of that window onward verbatim, so every later matching window that is
disjoint from the replaced one is unchanged. -/
theorem c3_first_window_amended (content oldCode newCode : Str) (i : Nat)
    (hnot : containsSub content oldCode = false)
    (hlen : i + ((splitNl (trim oldCode)).map trim).length ≤ (splitNl content).length)
    (hw : windowMatches (splitNl content) i ((splitNl (trim oldCode)).map trim) = true)
    (hmin : ∀ j, j < i →
      windowMatches (splitNl content) j ((splitNl (trim oldCode)).map trim) = false) :
    performSmartMatch content oldCode newCode =
      some (joinNl ((splitNl content).take i
        ++ fuzzyNewLines (leadingWs ((splitNl content).getD i [])) newCode
        ++ (splitNl content).drop (i + ((splitNl (trim oldCode)).map trim).length))) := by
  have hfind : findFirstIdx
      (fun j => windowMatches (splitNl content) j ((splitNl (trim oldCode)).map trim)) 0
      ((splitNl content).length + 1 - ((splitNl (trim oldCode)).map trim).length)
      = some i := by
    apply findFirstIdx_found
    · omega
    · omega
    · exact hw
    · exact fun j _ hj => hmin j hj
  simp only [performSmartMatch, hnot, Bool.false_eq_true, if_false, hfind]

/-- C3 witness: a concrete fuzzy match at the first window. -/
theorem c3_first_window_amended_witness :
    performSmartMatch (str "  foo\n  bar") (str "foo\nbar") (str "X") = some (str "X") := by
  have h := c3_first_window_amended (str "  foo\n  bar") (str "foo\nbar") (str "X") 0
    (by decide) (by decide) (by decide) (fun j hj => absurd hj (Nat.not_lt_zero j))
  rw [h]
  decide

/-- C4 counterexample: on the insert_lines path the payload's own whitespace
is not stripped. Inserting `a\n  b` after the matched line `    x` produces
the line `      b` (the reference indentation prepended to the raw line),
not the claimed `    b` (reference indentation prepended to the trimmed
line). -/
theorem c4_reindent_counterexample :
    insertLinesOp (str "    x\ny") (str "a\n  b") ⟨none, [], some (str "x"), none, none⟩ 1 true
      = .ok ⟨str "    x\na\n      b\ny", 2, 2⟩
  ∧ (splitNl (str "    x\na\n      b\ny")).getD 2 [] = str "      b"
  ∧ str "      b" ≠ leadingWs (str "    x") ++ trim (str "  b") := by
  refine ⟨rfl, by decide, by decide⟩

/-- C4 amended: in both paths the first payload line is untouched and blank
lines pass through unchanged; for every later non-blank line, the fuzzy
replacement path strips the line's own leading and trailing whitespace and
prepends the reference indentation, while the insert_lines path prepends the
reference indentation to the raw line, keeping the line's own whitespace. -/
theorem c4_reindent_amended (indent matchedLine payload : Str) (i : Nat)
    (hi : 0 < i) (hlen : i < (splitNl payload).length)
    (hml : matchedLine ≠ []) (hnl : '\n' ∉ matchedLine) :
    (fuzzyNewLines indent payload).getD 0 [] = (splitNl payload).getD 0 []
  ∧ (trim ((splitNl payload).getD i []) ≠ [] →
      (fuzzyNewLines indent payload).getD i []
        = indent ++ trim ((splitNl payload).getD i []))
  ∧ (trim ((splitNl payload).getD i []) = [] →
      (fuzzyNewLines indent payload).getD i [] = (splitNl payload).getD i [])
  ∧ (splitNl (insertProcess true matchedLine payload)).getD 0 []
      = (splitNl payload).getD 0 []
  ∧ (trim ((splitNl payload).getD i []) ≠ [] →
      (splitNl (insertProcess true matchedLine payload)).getD i []
        = leadingWs matchedLine ++ (splitNl payload).getD i [])
  ∧ (trim ((splitNl payload).getD i []) = [] →
      (splitNl (insertProcess true matchedLine payload)).getD i []
        = (splitNl payload).getD i []) := by
  have h0len := splitNl_length_pos payload
  have hi0 : i ≠ 0 := by omega
  have hsplit := insertProcess_splitNl matchedLine payload hml hnl
  have hfz0 := mapWithIdx_getD
    (fun idx line => if idx = 0 then line
      else if trim line ≠ [] then indent ++ trim line else line)
    (splitNl payload) 0 0 h0len
  have hfzi := mapWithIdx_getD
    (fun idx line => if idx = 0 then line
      else if trim line ≠ [] then indent ++ trim line else line)
    (splitNl payload) 0 i hlen
  have hin0 := mapWithIdx_getD
    (fun idx line => if idx = 0 ∨ trim line = [] then line
      else leadingWs matchedLine ++ line)
    (splitNl payload) 0 0 h0len
  have hini := mapWithIdx_getD
    (fun idx line => if idx = 0 ∨ trim line = [] then line
      else leadingWs matchedLine ++ line)
    (splitNl payload) 0 i hlen
  refine ⟨?_, fun ht => ?_, fun ht => ?_, ?_, fun ht => ?_, fun ht => ?_⟩
  · rw [show fuzzyNewLines indent payload = mapWithIdx
        (fun idx line => if idx = 0 then line
          else if trim line ≠ [] then indent ++ trim line else line)
        0 (splitNl payload) from rfl, hfz0]
    simp
  · rw [show fuzzyNewLines indent payload = mapWithIdx
        (fun idx line => if idx = 0 then line
          else if trim line ≠ [] then indent ++ trim line else line)
        0 (splitNl payload) from rfl, hfzi]
    simp only [Nat.zero_add]
    rw [if_neg hi0, if_pos ht]
  · rw [show fuzzyNewLines indent payload = mapWithIdx
        (fun idx line => if idx = 0 then line
          else if trim line ≠ [] then indent ++ trim line else line)
        0 (splitNl payload) from rfl, hfzi]
    simp only [Nat.zero_add]
    rw [if_neg hi0, if_neg (fun hcon => hcon ht)]
  · rw [hsplit, hin0]
    simp
  · rw [hsplit, hini]
    simp only [Nat.zero_add]
    rw [if_neg (fun hor => hor.elim hi0 ht)]
  · rw [hsplit, hini]
    simp only [Nat.zero_add]
    rw [if_pos (Or.inr ht)]

/-- C4 witness: the two reindentation behaviours evaluated on the payload
`a\n  b` with reference line `    x`. -/
theorem c4_reindent_amended_witness :
    (fuzzyNewLines (str "  ") (str "a\n  b")).getD 1 [] = str "  " ++ trim (str "  b")
  ∧ (splitNl (insertProcess true (str "    x") (str "a\n  b"))).getD 1 []
      = leadingWs (str "    x") ++ str "  b" := by
  have h := c4_reindent_amended (str "  ") (str "    x") (str "a\n  b") 1
    (by decide) (by decide) (by decide) (by decide)
  constructor
  · have h2 := h.2.1 (by decide)
    rw [h2]
    decide
  · have h5 := h.2.2.2.2.1 (by decide)
    rw [h5]
    decide

/-- C7 witness: the clamping characterization evaluated at line number 10 on
a two-line file. -/
theorem c7_line_number_amended_witness :
    insertLinesOp (str "a\nb") (str "X") ⟨some 10, [], none, none, none⟩ 1 true
      = .ok ⟨joinNl (jsSpliceIns (splitNl (str "a\nb"))
              (if ([] : Str) = str "before" then 10 - 1 else 10) (splitNl (str "X"))),
           (if ([] : Str) = str "before" then 10 - 1 else 10) + 1,
           (splitNl (str "X")).length⟩ := by
  exact c7_line_number_amended (str "a\nb") (str "X") 10 [] 1 true (Or.inr (by decide))
